import Mathlib

/-!
Verification of the Bloom filter implementation in `bloom.go`
(repository `sounishnath003/bloom-filter-scratch-go`).

Shallow embedding conventions:
* Go panics (negative `make` length, modulo by zero, out-of-range slice
  indexing) are modelled by `Option` results (`none` = panic).
* The third-party murmur3 streaming hasher is modelled by its observable
  state: a seed and the buffer of bytes written since the last `Reset`.
  The pure 128-bit digest function of the murmur3 library is an external
  dependency, so every definition is parametrised by an arbitrary digest
  function `murmur : seed → data → (uint64, uint64)`; `Sum128` applies it
  to the seed and the current buffer.  The first component is truncated to
  64 bits where the Go code uses it as a `uint64`.
* Byte strings (`[]byte(key)`, hasher buffers) are modelled as `List Char`
  of the key's characters; `Write` appends.
* `int32` values (the filter size) are modelled as `Int` at the
  construction boundary and as `Nat` once construction has ensured
  non-negativity.
-/

/-- Observable state of a `murmur3.Hash128` streaming hasher: its seed and
the bytes written since the last reset. -/
structure Hash128 where
  seed : Nat
  buffer : List Char
deriving DecidableEq, Repr

/-- `Write`: append data to the hasher's internal buffer. -/
def Hash128.write (h : Hash128) (data : List Char) : Hash128 :=
  { h with buffer := h.buffer ++ data }

/-- `Reset`: clear the hasher's internal buffer. -/
def Hash128.reset (h : Hash128) : Hash128 :=
  { h with buffer := [] }

/-- `BloomFilter` from `bloom.go`: `Store []bool`, `Size int32`
(non-negative after construction, held as `Nat`), and the bank of
murmur3 hashers. -/
structure BloomFilter where
  Store : List Bool
  Size : Nat
  mHashers : List Hash128
deriving DecidableEq, Repr

/-- The eight fixed seeds passed to `murmur3.New128WithSeed` in
`NewBloomFilter`. -/
def seeds : List Nat := [11, 31, 131, 989, 1919, 2007, 31313, 9281917]

/-- The freshly constructed hasher bank: one hasher per seed, empty
buffers. -/
def hashBank : List Hash128 := seeds.map (fun s => { seed := s, buffer := [] })

/-- `NewBloomFilter(size int32)`: `make([]bool, size)` panics when `size`
is negative (`none`); otherwise the store is `size` false bits and the
hasher bank holds the eight seeded murmur3 instances. -/
def NewBloomFilter (size : Int) : Option BloomFilter :=
  if size < 0 then none
  else some { Store := List.replicate size.toNat false
              Size := size.toNat
              mHashers := hashBank }

/-- `Info()`: the configuration pair `(size, totalHashFuncs)` =
`(bf.Size, len(bf.mHashers))`. -/
def BloomFilter.Info (bf : BloomFilter) : Nat × Nat :=
  (bf.Size, bf.mHashers.length)

section MurmurParam

variable (murmur : Nat → List Char → Nat × Nat)

/-- `ComputeMurmurHash(key, hashFn)`: `Write` the key's bytes into hasher
`hashFn`, take the first `uint64` of `Sum128`, `Reset` the hasher, and
return the value.  The hasher mutation is threaded as a returned filter;
an out-of-range `hashFn` is a panic (`none`). -/
def BloomFilter.ComputeMurmurHash (bf : BloomFilter) (key : String)
    (hashFn : Nat) : Option (Nat × BloomFilter) :=
  match bf.mHashers[hashFn]? with
  | none => none
  | some hs =>
      let hs1 := hs.write key.data
      let val := (murmur hs1.seed hs1.buffer).1 % 2 ^ 64
      some (val, { bf with mHashers := bf.mHashers.set hashFn hs1.reset })

/-- `bf.Store[index] = true` with Go's bounds check: panic (`none`) when
`index` is out of range. -/
def storeSet (l : List Bool) (index : Nat) : Option (List Bool) :=
  if index < l.length then some (l.set index true) else none

/-- The body of `Add`'s loop, iterating over the remaining hash-function
indices: `index := ComputeMurmurHash(key, i) % uint64(bf.Size)` (modulo
by zero panics when `Size = 0`), then `bf.Store[index] = true`. -/
def BloomFilter.addIndices (key : String) :
    List Nat → BloomFilter → Option BloomFilter
  | [], bf => some bf
  | i :: rest, bf =>
      match BloomFilter.ComputeMurmurHash murmur bf key i with
      | none => none
      | some (v, bf1) =>
          if bf1.Size = 0 then none
          else
            match storeSet bf1.Store (v % bf1.Size) with
            | none => none
            | some st => BloomFilter.addIndices key rest { bf1 with Store := st }

/-- `Add(key)`: run the loop for `i = 0 .. len(bf.mHashers) - 1`. -/
def BloomFilter.Add (bf : BloomFilter) (key : String) : Option BloomFilter :=
  BloomFilter.addIndices murmur key (List.range bf.mHashers.length) bf

/-- The body of `Exists`'s loop: compute each index in turn; on the first
index whose bit is false return `(index, false)`; if the loop finishes
return `(0, true)`.  Modulo by zero and out-of-range reads panic. -/
def BloomFilter.existsIndices (key : String) :
    List Nat → BloomFilter → Option (Nat × Bool × BloomFilter)
  | [], bf => some (0, true, bf)
  | i :: rest, bf =>
      match BloomFilter.ComputeMurmurHash murmur bf key i with
      | none => none
      | some (v, bf1) =>
          if bf1.Size = 0 then none
          else
            match bf1.Store[v % bf1.Size]? with
            | none => none
            | some b =>
                if b then BloomFilter.existsIndices key rest bf1
                else some (v % bf1.Size, false, bf1)

/-- `Exists(key) (uint64, bool)`: run the loop for
`i = 0 .. len(bf.mHashers) - 1`. -/
def BloomFilter.Exists (bf : BloomFilter) (key : String) :
    Option (Nat × Bool × BloomFilter) :=
  BloomFilter.existsIndices murmur key (List.range bf.mHashers.length) bf

/-- The seed of hash function `i` in the bank. -/
def seedAt (i : Nat) : Nat := seeds.getD i 0

/-- The digest a freshly reset hasher `i` produces for `key`: first
`uint64` of `Sum128` over exactly the key's bytes. -/
def digest (i : Nat) (key : String) : Nat :=
  (murmur (seedAt i) key.data).1 % 2 ^ 64

/-- The store index hash function `i` maps `key` to, for a filter of the
given size: `digest % size`. -/
def keyIndex (i : Nat) (key : String) (size : Nat) : Nat :=
  digest murmur i key % size

/-- Well-formedness of a reachable filter state: the store has exactly
`Size` entries and the hasher bank is the eight seeded hashers with empty
buffers (every operation resets the hashers it touches). -/
def WF (bf : BloomFilter) : Prop :=
  bf.Store.length = bf.Size ∧ bf.mHashers = hashBank

instance (bf : BloomFilter) : Decidable (WF bf) := by
  unfold WF; infer_instance

/-- A public operation on a filter, for stating properties of arbitrary
operation sequences. -/
inductive Op where
  | add (key : String)
  | query (key : String)
  | info
deriving DecidableEq, Repr

/-- Run a sequence of public operations, threading the filter state:
`add` calls `Add`, `query` calls `Exists` and discards its result pair,
`info` calls `Info` (which returns data and performs no mutation). -/
def run : List Op → BloomFilter → Option BloomFilter
  | [], bf => some bf
  | Op.add k :: rest, bf =>
      match BloomFilter.Add murmur bf k with
      | none => none
      | some bf1 => run rest bf1
  | Op.query k :: rest, bf =>
      match BloomFilter.Exists murmur bf k with
      | none => none
      | some (_, _, bf1) => run rest bf1
  | Op.info :: rest, bf =>
      match bf.Info with
      | _ => run rest bf

/-- Full (non-short-circuiting) membership evaluation, from the spec's
words: compute all K = 8 indices and take the conjunction of the
corresponding bits. -/
def ExistsFull (bf : BloomFilter) (key : String) : Bool :=
  (List.range 8).all (fun i => bf.Store.getD (keyIndex murmur i key bf.Size) false)

end MurmurParam

/-- The candidate-size loop of `main`:
`for bfsize := 1000; bfsize <= 100000; bfsize += 10000`. -/
def sweepLoop (bfsize : Nat) : List Nat :=
  if bfsize ≤ 100000 then bfsize :: sweepLoop (bfsize + 10000) else []
termination_by 100001 - bfsize
decreasing_by omega

/-- The list of filter sizes `main` actually sweeps. -/
def sweepSizes : List Nat := sweepLoop 1000

/-- One pass of a `generateDataset` loop running `k` more iterations:
`c` is the number of `uuid.New()` calls made so far (the generator is
modelled by the call-indexed stream `ids`), `ds` the dataset slice,
`m` the partition map being filled. -/
def genLoop (ids : Nat → String) :
    Nat → Nat → List String → Finset String → Nat × List String × Finset String
  | c, 0, ds, m => (c, ds, m)
  | c, Nat.succ k, ds, m =>
      genLoop ids (c + 1) k (ds ++ [ids c]) (insert (ids c) m)

/-- `generateDataset(n)`: `dataset := make([]string, 1)` (one placeholder
empty string), then `n/2` iterations filling `trainDataset` and
`n - (n/2 + 1)` iterations filling `testDataset`, each appending a fresh
uuid string to the dataset. -/
def generateDataset (ids : Nat → String) (n : Nat) :
    List String × Finset String × Finset String :=
  let ds0 : List String := List.replicate 1 ""
  let r1 := genLoop ids 0 (n / 2) ds0 ∅
  let r2 := genLoop ids r1.1 (n - (n / 2 + 1)) r1.2.1 ∅
  (r2.2.1, r1.2.2, r2.2.2)

/-! ## Helper lemmas -/

/-- Setting a list entry to the value it already holds is the identity. -/
theorem set_self_of_getElem? {α : Type} : ∀ (l : List α) (i : Nat) (a : α),
    l[i]? = some a → l.set i a = l
  | [], i, a, h => by simp at h
  | x :: xs, 0, a, h => by simp at h; simp [h]
  | x :: xs, n + 1, a, h => by
      simp only [List.getElem?_cons_succ] at h
      simp [List.set, set_self_of_getElem? xs n a h]

/-- A bit that is true stays true after any `set _ true`. -/
theorem getD_set_true_mono (l : List Bool) (i j : Nat)
    (h : l.getD j false = true) : (l.set i true).getD j false = true := by
  rw [List.getD_eq_getD_get?, List.get?_eq_getElem?] at h ⊢
  rcases eq_or_ne i j with rfl | hne
  · rcases Nat.lt_or_ge i l.length with hlt | hge
    · rw [List.getElem?_set_eq_of_lt _ hlt]; rfl
    · rw [List.getElem?_eq_none (by simpa using hge)] at h; simp at h
  · rw [List.getElem?_set_ne hne]; exact h

/-- After `set i true` with `i` in range, bit `i` reads true. -/
theorem getD_set_true_self (l : List Bool) (i : Nat) (h : i < l.length) :
    (l.set i true).getD i false = true := by
  rw [List.getD_eq_getD_get?, List.get?_eq_getElem?,
    List.getElem?_set_eq_of_lt _ h]; rfl

/-- Reading in range relates `getElem?` and `getD`. -/
theorem getElem?_eq_some_getD (l : List Bool) (i : Nat) (h : i < l.length) :
    l[i]? = some (l.getD i false) := by
  rw [List.getElem?_eq_getElem h, List.getD_eq_getElem l false h]

/-- The hasher bank has exactly eight entries. -/
theorem hashBank_length : hashBank.length = 8 := rfl

/-- Entry `i` of the hasher bank is the reset hasher seeded with `seedAt i`. -/
theorem hashBank_getElem? (i : Nat) (h : i < 8) :
    hashBank[i]? = some { seed := seedAt i, buffer := [] } := by
  have hlen : i < seeds.length := h
  rw [hashBank, List.getElem?_map, List.getElem?_eq_getElem hlen]
  simp only [seedAt, Option.map_some']
  rw [List.getD_eq_getElem seeds 0 hlen]

/-- On a well-formed filter, `ComputeMurmurHash` returns the pure digest
of the key under seed `i` and leaves the filter unchanged (the hasher is
written and then reset back to its empty-buffer state). -/
theorem computeMurmurHash_wf (murmur : Nat → List Char → Nat × Nat)
    (bf : BloomFilter) (key : String) (i : Nat) (hwf : WF bf) (hi : i < 8) :
    BloomFilter.ComputeMurmurHash murmur bf key i =
      some (digest murmur i key, bf) := by
  obtain ⟨hlen, hbank⟩ := hwf
  rw [BloomFilter.ComputeMurmurHash, hbank, hashBank_getElem? i hi]
  have hset : hashBank.set i ({ seed := seedAt i, buffer := [] } : Hash128) =
      hashBank :=
    set_self_of_getElem? hashBank i _ (hashBank_getElem? i hi)
  simp only [Hash128.write, Hash128.reset, List.nil_append]
  rw [hset, ← hbank]
  rfl

/-- `ComputeMurmurHash` never touches `Store` or `Size` (it only mutates
the hasher bank), for any filter whatsoever. -/
theorem computeMurmurHash_store (murmur : Nat → List Char → Nat × Nat)
    (bf : BloomFilter) (key : String) (i : Nat) (v : Nat) (bf1 : BloomFilter)
    (h : BloomFilter.ComputeMurmurHash murmur bf key i = some (v, bf1)) :
    bf1.Store = bf.Store ∧ bf1.Size = bf.Size := by
  rw [BloomFilter.ComputeMurmurHash] at h
  cases hx : bf.mHashers[i]? with
  | none => rw [hx] at h; simp at h
  | some hs =>
      rw [hx] at h
      simp only [Option.some.injEq, Prod.mk.injEq] at h
      rw [← h.2]
      exact ⟨rfl, rfl⟩

/-- One bit of a filter's store, read with a false default. -/
def bitAt (bf : BloomFilter) (j : Nat) : Bool := bf.Store.getD j false

/-- Running the `Add` loop over any set of hash indices on a well-formed
filter of positive size succeeds, preserves well-formedness and the size,
only grows the bit set, and sets the bit of every processed index. -/
theorem addIndices_wf (murmur : Nat → List Char → Nat × Nat) (key : String) :
    ∀ (is : List Nat) (bf : BloomFilter), WF bf → 1 ≤ bf.Size →
    (∀ i ∈ is, i < 8) →
    ∃ bf1, BloomFilter.addIndices murmur key is bf = some bf1 ∧ WF bf1 ∧
      bf1.Size = bf.Size ∧
      (∀ j, bitAt bf j = true → bitAt bf1 j = true) ∧
      (∀ i ∈ is, bitAt bf1 (keyIndex murmur i key bf.Size) = true)
  | [], bf, hwf, _, _ => ⟨bf, rfl, hwf, rfl, fun _ h => h, fun i hi => absurd hi (by simp)⟩
  | i :: rest, bf, hwf, hsz, hlt => by
      have hi8 : i < 8 := hlt i (List.mem_cons_self i rest)
      have hcmh := computeMurmurHash_wf murmur bf key i hwf hi8
      have hsz0 : bf.Size ≠ 0 := by omega
      have hidx : keyIndex murmur i key bf.Size < bf.Store.length := by
        rw [hwf.1]
        exact Nat.mod_lt _ (by omega)
      have hss : storeSet bf.Store (digest murmur i key % bf.Size) =
          some (bf.Store.set (keyIndex murmur i key bf.Size) true) := by
        rw [storeSet, if_pos]
        · rfl
        · exact hidx
      set bf' : BloomFilter :=
        { bf with Store := bf.Store.set (keyIndex murmur i key bf.Size) true } with hbf'
      have hwf' : WF bf' := ⟨by simp [hbf', hwf.1], hwf.2⟩
      have hsz' : 1 ≤ bf'.Size := hsz
      obtain ⟨bf1, hrun, hwf1, hsz1, hmono, hcov⟩ :=
        addIndices_wf murmur key rest bf' hwf' hsz'
          (fun j hj => hlt j (List.mem_cons_of_mem i hj))
      refine ⟨bf1, ?_, hwf1, hsz1, ?_, ?_⟩
      · rw [BloomFilter.addIndices, hcmh]
        simp only [if_neg hsz0]
        rw [hss]
        exact hrun
      · intro j hj
        exact hmono j (getD_set_true_mono bf.Store _ j hj)
      · intro a ha
        rcases List.mem_cons.mp ha with rfl | ha
        · exact hmono _ (getD_set_true_self bf.Store _ hidx)
        · exact hcov a ha

/-- Running the `Exists` loop over any set of hash indices on a
well-formed filter of positive size succeeds, returns the filter
unchanged, and its boolean is the conjunction of the processed bits. -/
theorem existsIndices_wf (murmur : Nat → List Char → Nat × Nat) (key : String) :
    ∀ (is : List Nat) (bf : BloomFilter), WF bf → 1 ≤ bf.Size →
    (∀ i ∈ is, i < 8) →
    ∃ r, BloomFilter.existsIndices murmur key is bf =
      some (r, is.all (fun i => bitAt bf (keyIndex murmur i key bf.Size)), bf)
  | [], bf, _, _, _ => ⟨0, rfl⟩
  | i :: rest, bf, hwf, hsz, hlt => by
      have hi8 : i < 8 := hlt i (List.mem_cons_self i rest)
      have hcmh := computeMurmurHash_wf murmur bf key i hwf hi8
      have hsz0 : bf.Size ≠ 0 := by omega
      have hidx : keyIndex murmur i key bf.Size < bf.Store.length := by
        rw [hwf.1]
        exact Nat.mod_lt _ (by omega)
      have hget : bf.Store[digest murmur i key % bf.Size]? =
          some (bitAt bf (keyIndex murmur i key bf.Size)) :=
        getElem?_eq_some_getD bf.Store _ hidx
      rw [BloomFilter.existsIndices]
      cases hb : bitAt bf (keyIndex murmur i key bf.Size) with
      | false =>
          refine ⟨keyIndex murmur i key bf.Size, ?_⟩
          rw [hcmh]
          simp only [if_neg hsz0]
          rw [hget, hb]
          have hall : (i :: rest).all
              (fun a => bitAt bf (keyIndex murmur a key bf.Size)) = false := by
            rw [List.all_cons, hb]
            rfl
          rw [hall]
          rfl
      | true =>
          obtain ⟨r, hrest⟩ := existsIndices_wf murmur key rest bf hwf hsz
            (fun j hj => hlt j (List.mem_cons_of_mem i hj))
          refine ⟨r, ?_⟩
          rw [hcmh]
          simp only [if_neg hsz0]
          rw [hget, hb]
          simp only [if_pos]
          rw [hrest]
          simp [hb]

/-- For any filter whatsoever (well-formed or not), a successful `Add`
loop preserves the store length and only turns bits from false to true. -/
theorem addIndices_mono (murmur : Nat → List Char → Nat × Nat) (key : String) :
    ∀ (is : List Nat) (bf bf1 : BloomFilter),
    BloomFilter.addIndices murmur key is bf = some bf1 →
    bf1.Store.length = bf.Store.length ∧ bf1.Size = bf.Size ∧
      (∀ j, bitAt bf j = true → bitAt bf1 j = true)
  | [], bf, bf1, h => by
      rw [BloomFilter.addIndices] at h
      simp only [Option.some.injEq] at h
      rw [← h]
      exact ⟨rfl, rfl, fun _ hj => hj⟩
  | i :: rest, bf, bf1, h => by
      rw [BloomFilter.addIndices] at h
      split at h
      · exact absurd h (by simp)
      next v bfm hcmh =>
        obtain ⟨hstore, hsize⟩ :=
          computeMurmurHash_store murmur bf key i v bfm hcmh
        split at h
        · exact absurd h (by simp)
        next hz =>
          split at h
          · exact absurd h (by simp)
          next st hss =>
            rw [storeSet] at hss
            split at hss
            · simp only [Option.some.injEq] at hss
              obtain ⟨hlen1, hsz1, hmono1⟩ :=
                addIndices_mono murmur key rest _ bf1 h
              refine ⟨?_, ?_, ?_⟩
              · rw [hlen1]
                simp [← hss, hstore]
              · rw [hsz1, hsize]
              · intro j hj
                apply hmono1
                show ({ bfm with Store := st } : BloomFilter).Store.getD j false = true
                rw [← hss, hstore]
                exact getD_set_true_mono bf.Store _ j hj
            · exact absurd hss (by simp)

/-- For any filter whatsoever, a successful `Exists` loop returns a
filter with exactly the same store and size (only hasher buffers are
touched, and they are reset). -/
theorem existsIndices_store_eq (murmur : Nat → List Char → Nat × Nat)
    (key : String) :
    ∀ (is : List Nat) (bf : BloomFilter) (r : Nat) (b : Bool)
      (bf1 : BloomFilter),
    BloomFilter.existsIndices murmur key is bf = some (r, b, bf1) →
    bf1.Store = bf.Store ∧ bf1.Size = bf.Size
  | [], bf, r, b, bf1, h => by
      rw [BloomFilter.existsIndices] at h
      simp only [Option.some.injEq, Prod.mk.injEq] at h
      rw [← h.2.2]
      exact ⟨rfl, rfl⟩
  | i :: rest, bf, r, b, bf1, h => by
      rw [BloomFilter.existsIndices] at h
      split at h
      · exact absurd h (by simp)
      next v bfm hcmh =>
        obtain ⟨hstore, hsize⟩ :=
          computeMurmurHash_store murmur bf key i v bfm hcmh
        split at h
        · exact absurd h (by simp)
        next hz =>
          split at h
          · exact absurd h (by simp)
          next bbit hget =>
            split at h
            · obtain ⟨h1, h2⟩ := existsIndices_store_eq murmur key rest bfm r b bf1 h
              exact ⟨h1.trans hstore, h2.trans hsize⟩
            · simp only [Option.some.injEq, Prod.mk.injEq] at h
              rw [← h.2.2]
              exact ⟨hstore, hsize⟩

/-- Running any sequence of public operations preserves well-formedness,
the size, and the set of true bits (monotonicity), whenever it succeeds. -/
theorem run_mono (murmur : Nat → List Char → Nat × Nat) :
    ∀ (ops : List Op) (bf bf1 : BloomFilter), run murmur ops bf = some bf1 →
    bf1.Size = bf.Size ∧ bf1.Store.length = bf.Store.length ∧
      (∀ j, bitAt bf j = true → bitAt bf1 j = true)
  | [], bf, bf1, h => by
      rw [run] at h
      simp only [Option.some.injEq] at h
      rw [← h]
      exact ⟨rfl, rfl, fun _ hj => hj⟩
  | Op.add k :: rest, bf, bf1, h => by
      rw [run] at h
      split at h
      · exact absurd h (by simp)
      next bfm hadd =>
        obtain ⟨hlen, hsz, hmono⟩ := addIndices_mono murmur k _ bf bfm hadd
        obtain ⟨hsz1, hlen1, hmono1⟩ := run_mono murmur rest bfm bf1 h
        exact ⟨hsz1.trans hsz, hlen1.trans hlen, fun j hj => hmono1 j (hmono j hj)⟩
  | Op.query k :: rest, bf, bf1, h => by
      rw [run] at h
      split at h
      · exact absurd h (by simp)
      next r b bfm hex =>
        obtain ⟨hst, hsz⟩ := existsIndices_store_eq murmur k _ bf r b bfm hex
        obtain ⟨hsz1, hlen1, hmono1⟩ := run_mono murmur rest bfm bf1 h
        refine ⟨hsz1.trans hsz, by rw [hlen1, hst], fun j hj => hmono1 j ?_⟩
        show bfm.Store.getD j false = true
        rw [hst]
        exact hj
  | Op.info :: rest, bf, bf1, h => by
      rw [run] at h
      exact run_mono murmur rest bf bf1 h

/-- `Add` on a well-formed filter of positive size succeeds, preserves
well-formedness and size, and sets all eight key indices. -/
theorem add_wf (murmur : Nat → List Char → Nat × Nat) (bf : BloomFilter)
    (key : String) (hwf : WF bf) (hsz : 1 ≤ bf.Size) :
    ∃ bf1, BloomFilter.Add murmur bf key = some bf1 ∧ WF bf1 ∧
      bf1.Size = bf.Size ∧
      (∀ j, bitAt bf j = true → bitAt bf1 j = true) ∧
      (∀ i, i < 8 → bitAt bf1 (keyIndex murmur i key bf.Size) = true) := by
  have hlen : bf.mHashers.length = 8 := by rw [hwf.2]; rfl
  obtain ⟨bf1, hrun, hwf1, hsz1, hmono, hcov⟩ :=
    addIndices_wf murmur key (List.range bf.mHashers.length) bf hwf hsz
      (fun i hi => by rw [hlen] at hi; exact List.mem_range.mp hi)
  exact ⟨bf1, hrun, hwf1, hsz1, hmono,
    fun i hi => hcov i (by rw [hlen]; exact List.mem_range.mpr hi)⟩

/-- `Exists` on a well-formed filter of positive size succeeds, leaves
the filter unchanged, and its boolean is the conjunction of the eight
key-index bits. -/
theorem exists_wf (murmur : Nat → List Char → Nat × Nat) (bf : BloomFilter)
    (key : String) (hwf : WF bf) (hsz : 1 ≤ bf.Size) :
    ∃ r, BloomFilter.Exists murmur bf key =
      some (r, (List.range 8).all
        (fun i => bitAt bf (keyIndex murmur i key bf.Size)), bf) := by
  have hlen : bf.mHashers.length = 8 := by rw [hwf.2]; rfl
  obtain ⟨r, hr⟩ :=
    existsIndices_wf murmur key (List.range bf.mHashers.length) bf hwf hsz
      (fun i hi => by rw [hlen] at hi; exact List.mem_range.mp hi)
  rw [hlen] at hr
  refine ⟨r, ?_⟩
  rw [BloomFilter.Exists, hlen]
  exact hr

/-- Running any sequence of operations from a well-formed filter of
positive size succeeds and preserves well-formedness and size. -/
theorem run_wf (murmur : Nat → List Char → Nat × Nat) :
    ∀ (ops : List Op) (bf : BloomFilter), WF bf → 1 ≤ bf.Size →
    ∃ bf1, run murmur ops bf = some bf1 ∧ WF bf1 ∧ bf1.Size = bf.Size
  | [], bf, hwf, _ => ⟨bf, rfl, hwf, rfl⟩
  | Op.add k :: rest, bf, hwf, hsz => by
      obtain ⟨bfm, hadd, hwfm, hszm, _, _⟩ := add_wf murmur bf k hwf hsz
      obtain ⟨bf1, hrun, hwf1, hsz1⟩ :=
        run_wf murmur rest bfm hwfm (by omega)
      refine ⟨bf1, ?_, hwf1, by omega⟩
      rw [run, hadd]
      exact hrun
  | Op.query k :: rest, bf, hwf, hsz => by
      obtain ⟨r, hex⟩ := exists_wf murmur bf k hwf hsz
      obtain ⟨bf1, hrun, hwf1, hsz1⟩ := run_wf murmur rest bf hwf hsz
      refine ⟨bf1, ?_, hwf1, hsz1⟩
      rw [run, hex]
      exact hrun
  | Op.info :: rest, bf, hwf, hsz => by
      obtain ⟨bf1, hrun, hwf1, hsz1⟩ := run_wf murmur rest bf hwf hsz
      refine ⟨bf1, ?_, hwf1, hsz1⟩
      rw [run]
      exact hrun

/-- Whenever the `Exists` loop returns a true boolean, the accompanying
`uint64` is 0, for any filter whatsoever. -/
theorem existsIndices_true_zero (murmur : Nat → List Char → Nat × Nat)
    (key : String) :
    ∀ (is : List Nat) (bf : BloomFilter) (r : Nat) (bf1 : BloomFilter),
    BloomFilter.existsIndices murmur key is bf = some (r, true, bf1) → r = 0
  | [], bf, r, bf1, h => by
      rw [BloomFilter.existsIndices] at h
      simp only [Option.some.injEq, Prod.mk.injEq] at h
      exact h.1.symm
  | i :: rest, bf, r, bf1, h => by
      rw [BloomFilter.existsIndices] at h
      split at h
      · exact absurd h (by simp)
      next v bfm hcmh =>
        split at h
        · exact absurd h (by simp)
        next hz =>
          split at h
          · exact absurd h (by simp)
          next bbit hget =>
            split at h
            · exact existsIndices_true_zero murmur key rest bfm r bf1 h
            · simp only [Option.some.injEq, Prod.mk.injEq] at h
              exact absurd h.2.1 (by simp)

/-- Whenever the `Exists` loop over the contiguous index block
`range' s cnt` returns false on a well-formed filter, the returned
`uint64` is the store index of the first hash function in bank order
whose bit is unset, and all earlier bits in the block are set. -/
theorem existsIndices_false_first (murmur : Nat → List Char → Nat × Nat)
    (key : String) :
    ∀ (cnt s : Nat) (bf : BloomFilter) (r : Nat) (bf1 : BloomFilter),
    WF bf → 1 ≤ bf.Size → s + cnt ≤ 8 →
    BloomFilter.existsIndices murmur key (List.range' s cnt) bf =
      some (r, false, bf1) →
    ∃ j, s ≤ j ∧ j < s + cnt ∧ r = keyIndex murmur j key bf.Size ∧
      bitAt bf r = false ∧
      ∀ i, s ≤ i → i < j → bitAt bf (keyIndex murmur i key bf.Size) = true
  | 0, s, bf, r, bf1, _, _, _, h => by
      rw [List.range'_zero, BloomFilter.existsIndices] at h
      simp only [Option.some.injEq, Prod.mk.injEq] at h
      exact absurd h.2.1 (by simp)
  | cnt + 1, s, bf, r, bf1, hwf, hsz, hle, h => by
      have hs8 : s < 8 := by omega
      have hcmh := computeMurmurHash_wf murmur bf key s hwf hs8
      have hsz0 : bf.Size ≠ 0 := by omega
      have hidx : keyIndex murmur s key bf.Size < bf.Store.length := by
        rw [hwf.1]
        exact Nat.mod_lt _ (by omega)
      have hget : bf.Store[digest murmur s key % bf.Size]? =
          some (bitAt bf (keyIndex murmur s key bf.Size)) :=
        getElem?_eq_some_getD bf.Store _ hidx
      have hcons : List.range' s (cnt + 1) = s :: List.range' (s + 1) cnt := rfl
      rw [hcons] at h
      cases hb : bitAt bf (keyIndex murmur s key bf.Size) with
      | false =>
          have heq : BloomFilter.existsIndices murmur key
              (s :: List.range' (s + 1) cnt) bf =
              some (keyIndex murmur s key bf.Size, false, bf) := by
            rw [BloomFilter.existsIndices, hcmh]
            simp only [if_neg hsz0]
            rw [hget, hb]
            rfl
          rw [heq] at h
          simp only [Option.some.injEq, Prod.mk.injEq] at h
          refine ⟨s, Nat.le_refl s, by omega, h.1.symm, ?_, fun i hi1 hi2 => by omega⟩
          rw [← h.1]
          exact hb
      | true =>
          have heq : BloomFilter.existsIndices murmur key
              (s :: List.range' (s + 1) cnt) bf =
              BloomFilter.existsIndices murmur key (List.range' (s + 1) cnt) bf := by
            rw [BloomFilter.existsIndices, hcmh]
            simp only [if_neg hsz0]
            rw [hget, hb]
            rfl
          rw [heq] at h
          obtain ⟨j, hj1, hj2, hj3, hj4, hj5⟩ :=
            existsIndices_false_first murmur key cnt (s + 1) bf r bf1 hwf hsz
              (by omega) h
          refine ⟨j, by omega, by omega, hj3, hj4, ?_⟩
          intro i hi1 hi2
          rcases Nat.eq_or_lt_of_le hi1 with rfl | hlt
          · exact hb
          · exact hj5 i hlt hi2

/-- All eight key indices of `key` are set in the filter's store. -/
def HasAll (murmur : Nat → List Char → Nat × Nat) (bf : BloomFilter)
    (key : String) : Prop :=
  ∀ i, i < 8 → bitAt bf (keyIndex murmur i key bf.Size) = true

/-- After a successful run of any operation sequence containing
`add key`, starting from a well-formed filter of positive size, all eight
key indices of `key` are set. -/
theorem run_hasAll (murmur : Nat → List Char → Nat × Nat) :
    ∀ (ops : List Op) (bf bf1 : BloomFilter) (key : String),
    WF bf → 1 ≤ bf.Size → run murmur ops bf = some bf1 →
    Op.add key ∈ ops → HasAll murmur bf1 key
  | [], bf, bf1, key, _, _, _, hmem => absurd hmem (by simp)
  | Op.add k :: rest, bf, bf1, key, hwf, hsz, h, hmem => by
      obtain ⟨bfm, hadd, hwfm, hszm, hmono, hcov⟩ := add_wf murmur bf k hwf hsz
      rw [run] at h
      split at h
      next hnone => rw [hadd] at hnone; exact absurd hnone (by simp)
      next bfm1 hadd1 =>
        rw [hadd] at hadd1
        simp only [Option.some.injEq] at hadd1
        rw [← hadd1] at h
        rcases List.mem_cons.mp hmem with heq | hmem1
        · have hkey : key = k := by injection heq
          subst hkey
          obtain ⟨hszr, _, hmonor⟩ := run_mono murmur rest bfm bf1 h
          intro i hi
          rw [hszr, hszm]
          exact hmonor _ (hcov i hi)
        · exact run_hasAll murmur rest bfm bf1 key hwfm (by omega) h hmem1
  | Op.query k :: rest, bf, bf1, key, hwf, hsz, h, hmem => by
      obtain ⟨r, hex⟩ := exists_wf murmur bf k hwf hsz
      rw [run] at h
      split at h
      next hnone => rw [hex] at hnone; exact absurd hnone (by simp)
      next r1 b1 bfm1 hex1 =>
        rw [hex] at hex1
        simp only [Option.some.injEq, Prod.mk.injEq] at hex1
        rw [← hex1.2.2] at h
        rcases List.mem_cons.mp hmem with heq | hmem1
        · exact absurd heq (by simp)
        · exact run_hasAll murmur rest bf bf1 key hwf hsz h hmem1
  | Op.info :: rest, bf, bf1, key, hwf, hsz, h, hmem => by
      rw [run] at h
      rcases List.mem_cons.mp hmem with heq | hmem1
      · exact absurd heq (by simp)
      · exact run_hasAll murmur rest bf bf1 key hwf hsz h hmem1

/-- A successful construction yields a well-formed filter: `size.toNat`
false bits and the fresh hasher bank. -/
theorem newBloomFilter_wf (size : Int) (bf : BloomFilter)
    (h : NewBloomFilter size = some bf) :
    WF bf ∧ bf.Size = size.toNat ∧ bf.Store = List.replicate size.toNat false ∧
      bf.mHashers = hashBank := by
  rw [NewBloomFilter] at h
  split at h
  · exact absurd h (by simp)
  · simp only [Option.some.injEq] at h
    rw [← h]
    exact ⟨⟨by simp, rfl⟩, rfl, rfl, rfl⟩

/-- Evaluation of the sweep loop: the sizes actually visited. -/
theorem sweepSizes_eq : sweepSizes =
    [1000, 11000, 21000, 31000, 41000, 51000, 61000, 71000, 81000, 91000] := by
  have h11 : sweepLoop 101000 = [] := by
    rw [sweepLoop, if_neg (by omega)]
  have h10 : sweepLoop 91000 = [91000] := by
    rw [sweepLoop, if_pos (by omega), h11]
  have h9 : sweepLoop 81000 = [81000, 91000] := by
    rw [sweepLoop, if_pos (by omega), h10]
  have h8 : sweepLoop 71000 = [71000, 81000, 91000] := by
    rw [sweepLoop, if_pos (by omega), h9]
  have h7 : sweepLoop 61000 = [61000, 71000, 81000, 91000] := by
    rw [sweepLoop, if_pos (by omega), h8]
  have h6 : sweepLoop 51000 = [51000, 61000, 71000, 81000, 91000] := by
    rw [sweepLoop, if_pos (by omega), h7]
  have h5 : sweepLoop 41000 = [41000, 51000, 61000, 71000, 81000, 91000] := by
    rw [sweepLoop, if_pos (by omega), h6]
  have h4 : sweepLoop 31000 = [31000, 41000, 51000, 61000, 71000, 81000, 91000] := by
    rw [sweepLoop, if_pos (by omega), h5]
  have h3 : sweepLoop 21000 =
      [21000, 31000, 41000, 51000, 61000, 71000, 81000, 91000] := by
    rw [sweepLoop, if_pos (by omega), h4]
  have h2 : sweepLoop 11000 =
      [11000, 21000, 31000, 41000, 51000, 61000, 71000, 81000, 91000] := by
    rw [sweepLoop, if_pos (by omega), h3]
  rw [sweepSizes, sweepLoop, if_pos (by omega), h2]

/-- The uuid strings produced by calls `c, c+1, ..., c+k-1`. -/
def idsBlock (ids : Nat → String) (c k : Nat) : List String :=
  (List.range k).map (fun j => ids (c + j))

/-- Peeling one call off the front of a block. -/
theorem idsBlock_succ (ids : Nat → String) (c k : Nat) :
    idsBlock ids c (k + 1) = ids c :: idsBlock ids (c + 1) k := by
  rw [idsBlock, List.range_succ_eq_map, List.map_cons, List.map_map]
  rw [Nat.add_zero]
  refine congrArg (List.cons (ids c)) ?_
  rw [idsBlock]
  refine List.map_congr_left ?_
  intro j _
  simp only [Function.comp_apply]
  refine congrArg ids ?_
  omega

/-- Closed form of one dataset-generation loop. -/
theorem genLoop_eq (ids : Nat → String) :
    ∀ (k c : Nat) (ds : List String) (m : Finset String),
    genLoop ids c k ds m =
      (c + k, ds ++ idsBlock ids c k, m ∪ (idsBlock ids c k).toFinset)
  | 0, c, ds, m => by
      simp [genLoop, idsBlock]
  | k + 1, c, ds, m => by
      rw [genLoop, genLoop_eq ids k (c + 1) (ds ++ [ids c]) (insert (ids c) m)]
      rw [idsBlock_succ]
      refine Prod.ext (by omega) (Prod.ext ?_ ?_)
      · show ds ++ [ids c] ++ idsBlock ids (c + 1) k =
          ds ++ (ids c :: idsBlock ids (c + 1) k)
        rw [List.append_assoc]
        rfl
      · show insert (ids c) m ∪ (idsBlock ids (c + 1) k).toFinset =
          m ∪ (ids c :: idsBlock ids (c + 1) k).toFinset
        rw [List.toFinset_cons]
        ext x
        simp only [Finset.mem_union, Finset.mem_insert]
        tauto

/-- A block of pairwise-distinct uuids has no duplicates. -/
theorem idsBlock_nodup (ids : Nat → String) (c k : Nat)
    (hinj : ∀ a b, c ≤ a → a < c + k → c ≤ b → b < c + k → ids a = ids b → a = b) :
    (idsBlock ids c k).Nodup := by
  rw [idsBlock]
  refine List.Nodup.map_on ?_ (List.nodup_range k)
  intro a ha b hb hab
  have ha' := List.mem_range.mp ha
  have hb' := List.mem_range.mp hb
  have := hinj (c + a) (c + b) (by omega) (by omega) (by omega) (by omega) hab
  omega

/-- Membership in a block. -/
theorem mem_idsBlock (ids : Nat → String) (c k : Nat) (x : String) :
    x ∈ (idsBlock ids c k).toFinset ↔ ∃ j, j < k ∧ ids (c + j) = x := by
  rw [idsBlock]
  simp only [List.mem_toFinset, List.mem_map, List.mem_range]

/-- A block has `k` entries; with pairwise-distinct uuids its set has
cardinality `k`. -/
theorem idsBlock_card (ids : Nat → String) (c k : Nat)
    (hinj : ∀ a b, c ≤ a → a < c + k → c ≤ b → b < c + k → ids a = ids b → a = b) :
    (idsBlock ids c k).toFinset.card = k := by
  rw [List.toFinset_card_of_nodup (idsBlock_nodup ids c k hinj)]
  rw [idsBlock, List.length_map, List.length_range]

/-! ## Claim theorems -/

/-- A concrete digest function used to instantiate the abstract murmur3
parameter in witness evaluations. -/
def wm : Nat → List Char → Nat × Nat := fun s d => (s + d.length, 0)

/-- The filter `NewBloomFilter 2` returns. -/
def wbf0 : BloomFilter :=
  { Store := [false, false], Size := 2, mHashers := hashBank }

/-- The filter after `Add "k"` on `wbf0` under `wm` (all eight digests of
a one-character key are even, so only bit 0 is set). -/
def wbf1 : BloomFilter :=
  { Store := [true, false], Size := 2, mHashers := hashBank }

/-- The filter `NewBloomFilter 1` returns. -/
def wbfA : BloomFilter :=
  { Store := [false], Size := 1, mHashers := hashBank }

/-- The filter after any `Add` on `wbfA`. -/
def wbfB : BloomFilter :=
  { Store := [true], Size := 1, mHashers := hashBank }

/-- The degenerate filter `NewBloomFilter 0` returns. -/
def zbf : BloomFilter :=
  { Store := [], Size := 0, mHashers := hashBank }

/-- C1: no false negatives.  For every filter constructed by
`NewBloomFilter size` with `size ≥ 1` and every finite sequence of public
operations, every key passed to `Add` at any earlier point makes `Exists`
return true in its boolean component, regardless of other interleaved
`Add` and `Exists` calls. -/
theorem C1_no_false_negatives (murmur : Nat → List Char → Nat × Nat)
    (size : Int) (hsize : 1 ≤ size) (ops : List Op) (key : String)
    (bf0 bf1 : BloomFilter) (h0 : NewBloomFilter size = some bf0)
    (h1 : run murmur ops bf0 = some bf1) (hmem : Op.add key ∈ ops) :
    ∃ r bf2, BloomFilter.Exists murmur bf1 key = some (r, true, bf2) := by
  obtain ⟨hwf0, hsz0, _, _⟩ := newBloomFilter_wf size bf0 h0
  have hpos : 1 ≤ bf0.Size := by omega
  have hall := run_hasAll murmur ops bf0 bf1 key hwf0 hpos h1 hmem
  obtain ⟨bf1', hrun', hwf1, hsz1⟩ := run_wf murmur ops bf0 hwf0 hpos
  rw [h1] at hrun'
  have hbf : bf1 = bf1' := by injection hrun'
  rw [← hbf] at hwf1 hsz1
  obtain ⟨r, hex⟩ := exists_wf murmur bf1 key hwf1 (by omega)
  have hallb : (List.range 8).all
      (fun i => bitAt bf1 (keyIndex murmur i key bf1.Size)) = true := by
    rw [List.all_eq_true]
    intro i hi
    exact hall i (List.mem_range.mp hi)
  rw [hallb] at hex
  exact ⟨r, bf1, hex⟩

/-- Witness for C1 at a concrete instance: size 2, one `Add "k"`. -/
theorem C1_witness :
    (1 : Int) ≤ 2 ∧ NewBloomFilter 2 = some wbf0 ∧
      run wm [Op.add "k"] wbf0 = some wbf1 ∧ Op.add "k" ∈ [Op.add "k"] ∧
      ∃ r bf2, BloomFilter.Exists wm wbf1 "k" = some (r, true, bf2) :=
  ⟨by decide, by decide, by decide, by decide,
    C1_no_false_negatives wm 2 (by decide) [Op.add "k"] "k" wbf0 wbf1
      (by decide) (by decide) (by decide)⟩

/-- C2: size-1 degeneracy.  After a single `Add` of any key on a filter
of size 1, `Exists` returns true for every key whatsoever (the filter's
one shared bit is set), with result exactly `(0, true)`. -/
theorem C2_size_one_degenerate (murmur : Nat → List Char → Nat × Nat)
    (k : String) (bf0 bf1 : BloomFilter) (h0 : NewBloomFilter 1 = some bf0)
    (h1 : BloomFilter.Add murmur bf0 k = some bf1) :
    ∀ key : String, BloomFilter.Exists murmur bf1 key = some (0, true, bf1) := by
  obtain ⟨hwf0, hsz0, _, _⟩ := newBloomFilter_wf 1 bf0 h0
  have hpos : 1 ≤ bf0.Size := by omega
  obtain ⟨bf1', hadd', hwf1, hsz1, _, hcov⟩ := add_wf murmur bf0 k hwf0 hpos
  rw [h1] at hadd'
  have hbf : bf1 = bf1' := by injection hadd'
  rw [← hbf] at hwf1 hsz1 hcov
  have hsz1' : bf1.Size = 1 := by omega
  have hbit0 : bitAt bf1 0 = true := by
    have := hcov 0 (by omega)
    rw [hsz0] at this
    simpa [keyIndex, Nat.mod_one] using this
  intro key
  obtain ⟨r, hex⟩ := exists_wf murmur bf1 key hwf1 (by omega)
  have hallb : (List.range 8).all
      (fun i => bitAt bf1 (keyIndex murmur i key bf1.Size)) = true := by
    rw [List.all_eq_true]
    intro i _
    rw [hsz1']
    simpa [keyIndex, Nat.mod_one] using hbit0
  rw [hallb] at hex
  have hr : r = 0 := existsIndices_true_zero murmur key _ bf1 r bf1 hex
  rw [← hr]
  exact hex

/-- Witness for C2 at a concrete instance: add `"k"`, query a key never
added. -/
theorem C2_witness :
    NewBloomFilter 1 = some wbfA ∧ BloomFilter.Add wm wbfA "k" = some wbfB ∧
      BloomFilter.Exists wm wbfB "never-added" = some (0, true, wbfB) :=
  ⟨by decide, by decide,
    C2_size_one_degenerate wm "k" wbfA wbfB (by decide) (by decide) "never-added"⟩

/-- C3: short-circuit equivalence.  On every reachable filter state (any
well-formed state of positive size), the short-circuiting `Exists`
returns the same boolean as the full evaluation that computes all eight
indices and takes the conjunction of the corresponding bits. -/
theorem C3_short_circuit_equivalence (murmur : Nat → List Char → Nat × Nat)
    (bf : BloomFilter) (key : String) (hwf : WF bf) (hsz : 1 ≤ bf.Size) :
    ∃ r bf1, BloomFilter.Exists murmur bf key =
      some (r, ExistsFull murmur bf key, bf1) := by
  obtain ⟨r, hex⟩ := exists_wf murmur bf key hwf hsz
  exact ⟨r, bf, hex⟩

/-- Witness for C3 at a concrete instance. -/
theorem C3_witness :
    WF wbfA ∧ 1 ≤ wbfA.Size ∧
      ∃ r bf1, BloomFilter.Exists wm wbfA "q" =
        some (r, ExistsFull wm wbfA "q", bf1) :=
  ⟨by decide, by decide,
    C3_short_circuit_equivalence wm wbfA "q" (by decide) (by decide)⟩

/-- C4: bit monotonicity.  Across any sequence of public operations the
set of true store bits never shrinks; `Add` preserves the store length
and only turns bits from false to true; a successful `Exists` returns
the store entirely unchanged; and `run`ning an `Info` operation returns
the filter identically. -/
theorem C4_bit_monotonicity (murmur : Nat → List Char → Nat × Nat) :
    (∀ (ops : List Op) (bf bf1 : BloomFilter), run murmur ops bf = some bf1 →
      bf1.Store.length = bf.Store.length ∧
        ∀ j, bitAt bf j = true → bitAt bf1 j = true) ∧
    (∀ (bf : BloomFilter) (key : String) (bf1 : BloomFilter),
      BloomFilter.Add murmur bf key = some bf1 →
      bf1.Store.length = bf.Store.length ∧
        ∀ j, bitAt bf j = true → bitAt bf1 j = true) ∧
    (∀ (bf : BloomFilter) (key : String) (r : Nat) (b : Bool)
        (bf1 : BloomFilter),
      BloomFilter.Exists murmur bf key = some (r, b, bf1) →
      bf1.Store = bf.Store) ∧
    (∀ bf : BloomFilter, run murmur [Op.info] bf = some bf) := by
  refine ⟨?_, ?_, ?_, ?_⟩
  · intro ops bf bf1 h
    obtain ⟨_, hlen, hmono⟩ := run_mono murmur ops bf bf1 h
    exact ⟨hlen, hmono⟩
  · intro bf key bf1 h
    obtain ⟨hlen, _, hmono⟩ := addIndices_mono murmur key _ bf bf1 h
    exact ⟨hlen, hmono⟩
  · intro bf key r b bf1 h
    exact (existsIndices_store_eq murmur key _ bf r b bf1 h).1
  · intro bf
    rfl

/-- Witness for C4 at concrete instances of each conjunct. -/
theorem C4_witness :
    (run wm [Op.add "k"] wbfA = some wbfB ∧
      wbfB.Store.length = wbfA.Store.length) ∧
    (BloomFilter.Add wm wbfA "k" = some wbfB ∧ bitAt wbfB 0 = true) ∧
    (BloomFilter.Exists wm wbfB "k" = some (0, true, wbfB) ∧
      wbfB.Store = wbfB.Store) ∧
    run wm [Op.info] wbfA = some wbfA :=
  ⟨⟨by decide, ((C4_bit_monotonicity wm).1 [Op.add "k"] wbfA wbfB (by decide)).1⟩,
    ⟨by decide, by decide⟩,
    ⟨by decide, (C4_bit_monotonicity wm).2.2.1 wbfB "k" 0 true wbfB (by decide)⟩,
    (C4_bit_monotonicity wm).2.2.2 wbfA⟩

/-- C5: digest determinism.  For a fixed `(key, i)` with `i < 8`, the
digest is a pure function of the key: on any well-formed filter the call
returns the same value and restores the filter (the hasher is reset, so
prior `Write` history cannot leak); consequently an immediate repeat of
the call yields the identical value, and two filters built by
`NewBloomFilter` at any sizes agree on the digest of the same `(key, i)`
since they hold the same seed bank. -/
theorem C5_digest_determinism (murmur : Nat → List Char → Nat × Nat)
    (key : String) (i : Nat) (hi : i < 8) :
    (∀ bf : BloomFilter, WF bf →
      BloomFilter.ComputeMurmurHash murmur bf key i =
        some (digest murmur i key, bf)) ∧
    (∀ bf : BloomFilter, WF bf → ∀ (v : Nat) (bf1 : BloomFilter),
      BloomFilter.ComputeMurmurHash murmur bf key i = some (v, bf1) →
      BloomFilter.ComputeMurmurHash murmur bf1 key i = some (v, bf1)) ∧
    (∀ (s1 s2 : Int) (bf1 bf2 : BloomFilter),
      NewBloomFilter s1 = some bf1 → NewBloomFilter s2 = some bf2 →
      ∃ v bf1' bf2',
        BloomFilter.ComputeMurmurHash murmur bf1 key i = some (v, bf1') ∧
        BloomFilter.ComputeMurmurHash murmur bf2 key i = some (v, bf2')) := by
  refine ⟨?_, ?_, ?_⟩
  · intro bf hwf
    exact computeMurmurHash_wf murmur bf key i hwf hi
  · intro bf hwf v bf1 h
    rw [computeMurmurHash_wf murmur bf key i hwf hi] at h
    simp only [Option.some.injEq, Prod.mk.injEq] at h
    rw [← h.2, ← h.1]
    exact computeMurmurHash_wf murmur bf key i hwf hi
  · intro s1 s2 bf1 bf2 h1 h2
    obtain ⟨hwf1, _, _, _⟩ := newBloomFilter_wf s1 bf1 h1
    obtain ⟨hwf2, _, _, _⟩ := newBloomFilter_wf s2 bf2 h2
    exact ⟨digest murmur i key, bf1, bf2,
      computeMurmurHash_wf murmur bf1 key i hwf1 hi,
      computeMurmurHash_wf murmur bf2 key i hwf2 hi⟩

/-- Witness for C5 at a concrete instance: hash function 3, two filter
sizes. -/
theorem C5_witness :
    (3 < 8 ∧ WF wbfA ∧
      BloomFilter.ComputeMurmurHash wm wbfA "k" 3 =
        some (digest wm 3 "k", wbfA)) ∧
    (NewBloomFilter 1 = some wbfA ∧ NewBloomFilter 2 = some wbf0 ∧
      ∃ v bf1' bf2', BloomFilter.ComputeMurmurHash wm wbfA "k" 3 = some (v, bf1') ∧
        BloomFilter.ComputeMurmurHash wm wbf0 "k" 3 = some (v, bf2')) :=
  ⟨⟨by decide, by decide,
      (C5_digest_determinism wm "k" 3 (by decide)).1 wbfA (by decide)⟩,
    ⟨by decide, by decide,
      (C5_digest_determinism wm "k" 3 (by decide)).2.2 1 2 wbfA wbf0
        (by decide) (by decide)⟩⟩

/-- Counterexample to C6 as stated: construction does not fail for every
`size ≤ 0` — at size 0, `NewBloomFilter` returns a filter value (with an
empty store) without any error. -/
theorem C6_counterexample : NewBloomFilter 0 = some zbf := by decide

/-- C6 (amended): `NewBloomFilter` fails (panics in `make`) for every
negative size; for `size = 0` it succeeds (the failure only surfaces at
the first `Add`/`Exists`); and for every `size ≥ 1` it returns a filter
whose store has exactly `size` entries, all false, together with the
fixed bank of eight hash functions with pairwise-distinct seeds. -/
theorem C6_construction_validation :
    (∀ size : Int, size < 0 → NewBloomFilter size = none) ∧
    (∃ bf, NewBloomFilter 0 = some bf) ∧
    (∀ size : Int, 1 ≤ size → ∃ bf, NewBloomFilter size = some bf ∧
      bf.Store = List.replicate size.toNat false ∧
      bf.Store.length = size.toNat ∧
      (∀ j, bitAt bf j = false) ∧
      bf.mHashers.length = 8 ∧ (bf.mHashers.map Hash128.seed).Nodup) := by
  refine ⟨?_, ⟨zbf, by decide⟩, ?_⟩
  · intro size hneg
    rw [NewBloomFilter, if_pos hneg]
  · intro size hpos
    have hnb : NewBloomFilter size =
        some { Store := List.replicate size.toNat false, Size := size.toNat, mHashers := hashBank } := by
      rw [NewBloomFilter, if_neg (by omega)]
    refine ⟨_, hnb, rfl, by simp, ?_, rfl,
      by show (hashBank.map Hash128.seed).Nodup; decide⟩
    · intro j
      show (List.replicate size.toNat false).getD j false = false
      rw [List.getD_eq_getD_get?, List.get?_eq_getElem?]
      rcases Nat.lt_or_ge j size.toNat with hj | hj
      · rw [List.getElem?_eq_getElem (by simpa using hj)]
        simp
      · rw [List.getElem?_eq_none (by simpa using hj)]
        rfl

/-- Witness for C6 (amended) at concrete sizes -1 and 3. -/
theorem C6_witness :
    NewBloomFilter (-1) = none ∧
      (∃ bf, NewBloomFilter 3 = some bf ∧
        bf.Store = List.replicate (3 : Int).toNat false ∧
        bf.Store.length = (3 : Int).toNat ∧
        (∀ j, bitAt bf j = false) ∧
        bf.mHashers.length = 8 ∧ (bf.mHashers.map Hash128.seed).Nodup) :=
  ⟨C6_construction_validation.1 (-1) (by decide),
    C6_construction_validation.2.2 3 (by decide)⟩

/-- Counterexample to C7 as stated: 100,000 is never attained by the
sweep loop — `for bfsize := 1000; bfsize <= 100000; bfsize += 10000`
visits 1000, 11000, ..., 91000 and stops, because 100,000 is not
congruent to 1,000 modulo 10,000. -/
theorem C7_counterexample : 100000 ∉ sweepSizes := by
  rw [sweepSizes_eq]
  decide

/-- C7 (amended): the sizes `main` sweeps are exactly those reachable
from 1,000 by steps of 10,000 that do not exceed the inclusive loop
bound 100,000 — namely `1000 + 10000k` for `k = 0, ..., 9` — each is
swept once (the list has no duplicates) and each size yields a fresh
successfully-constructed filter of that size; the bound 100,000 itself
is not attained and is not swept. -/
theorem C7_sweep_range :
    sweepSizes = (List.range 10).map (fun k => 1000 + 10000 * k) ∧
    sweepSizes.Nodup ∧
    (∀ s ∈ sweepSizes, s ≤ 100000) ∧
    (∀ s ∈ sweepSizes, ∃ bf, NewBloomFilter (s : Int) = some bf ∧
      bf.Size = s) ∧
    100000 ∉ sweepSizes := by
  refine ⟨by rw [sweepSizes_eq]; decide, by rw [sweepSizes_eq]; decide,
    by rw [sweepSizes_eq]; decide, ?_, by rw [sweepSizes_eq]; decide⟩
  intro s _
  have hnb : NewBloomFilter (s : Int) =
      some { Store := List.replicate (s : Int).toNat false, Size := (s : Int).toNat, mHashers := hashBank } := by
    rw [NewBloomFilter, if_neg (by omega)]
  exact ⟨_, hnb, by simp⟩

/-- Witness for C7 (amended) at the concrete size 1,000. -/
theorem C7_witness :
    1000 ∈ sweepSizes ∧
      ∃ bf, NewBloomFilter ((1000 : Nat) : Int) = some bf ∧ bf.Size = 1000 :=
  ⟨by rw [sweepSizes_eq]; decide,
    C7_sweep_range.2.2.2.1 1000 (by rw [sweepSizes_eq]; decide)⟩

/-- Closed form of `generateDataset`: a leading empty placeholder string,
the train block of calls `0 .. n/2 - 1`, then the test block of calls
`n/2 .. n-2`. -/
theorem generateDataset_eq (ids : Nat → String) (n : Nat) :
    generateDataset ids n =
      ("" :: (idsBlock ids 0 (n / 2) ++ idsBlock ids (n / 2) (n - (n / 2 + 1))),
        (idsBlock ids 0 (n / 2)).toFinset,
        (idsBlock ids (n / 2) (n - (n / 2 + 1))).toFinset) := by
  rw [generateDataset]
  simp only [genLoop_eq, Nat.zero_add, List.replicate_one]
  refine Prod.ext ?_ (Prod.ext ?_ ?_)
  · show [""] ++ idsBlock ids 0 (n / 2) ++ idsBlock ids (n / 2) (n - (n / 2 + 1)) =
      "" :: (idsBlock ids 0 (n / 2) ++ idsBlock ids (n / 2) (n - (n / 2 + 1)))
    rw [List.append_assoc]
    rfl
  · show ∅ ∪ (idsBlock ids 0 (n / 2)).toFinset = (idsBlock ids 0 (n / 2)).toFinset
    rw [Finset.empty_union]
  · show ∅ ∪ (idsBlock ids (n / 2) (n - (n / 2 + 1))).toFinset =
      (idsBlock ids (n / 2) (n - (n / 2 + 1))).toFinset
    rw [Finset.empty_union]

/-- C8: dataset generation shape.  For `n ≥ 2` and pairwise-distinct
nonempty generated uuid strings, `generateDataset n` returns a dataset of
length exactly `n` whose first element is a blank string belonging to
neither partition, a train map of `n / 2` keys, a test map of
`n - n/2 - 1` keys, and the two maps are disjoint (for the reference
`n = 20000`: 10,000 and 9,999 keys). -/
theorem C8_dataset_shape (ids : Nat → String) (n : Nat) (hn : 2 ≤ n)
    (hinj : ∀ a, a < n - 1 → ∀ b, b < n - 1 → ids a = ids b → a = b)
    (hne : ∀ c, c < n - 1 → ids c ≠ "") :
    (generateDataset ids n).1.length = n ∧
    (generateDataset ids n).1[0]? = some "" ∧
    "" ∉ (generateDataset ids n).2.1 ∧
    "" ∉ (generateDataset ids n).2.2 ∧
    (generateDataset ids n).2.1.card = n / 2 ∧
    (generateDataset ids n).2.2.card = n - n / 2 - 1 ∧
    Disjoint (generateDataset ids n).2.1 (generateDataset ids n).2.2 := by
  rw [generateDataset_eq]
  have hlen1 : (idsBlock ids 0 (n / 2)).length = n / 2 := by
    rw [idsBlock, List.length_map, List.length_range]
  have hlen2 : (idsBlock ids (n / 2) (n - (n / 2 + 1))).length =
      n - (n / 2 + 1) := by
    rw [idsBlock, List.length_map, List.length_range]
  refine ⟨?_, by simp, ?_, ?_, ?_, ?_, ?_⟩
  · simp only [List.length_cons, List.length_append, hlen1, hlen2]
    omega
  · rw [mem_idsBlock]
    rintro ⟨j, hj, hjds⟩
    exact hne (0 + j) (by omega) hjds
  · rw [mem_idsBlock]
    rintro ⟨j, hj, hjds⟩
    exact hne (n / 2 + j) (by omega) hjds
  · show (idsBlock ids 0 (n / 2)).toFinset.card = n / 2
    refine idsBlock_card ids 0 (n / 2) ?_
    intro a b ha1 ha2 hb1 hb2 hab
    exact hinj a (by omega) b (by omega) hab
  · show (idsBlock ids (n / 2) (n - (n / 2 + 1))).toFinset.card = n - n / 2 - 1
    rw [idsBlock_card ids (n / 2) (n - (n / 2 + 1)) ?_]
    · omega
    · intro a b ha1 ha2 hb1 hb2 hab
      exact hinj a (by omega) b (by omega) hab
  · rw [Finset.disjoint_left]
    intro x hx1 hx2
    rw [mem_idsBlock] at hx1 hx2
    obtain ⟨j1, hj1, hx1⟩ := hx1
    obtain ⟨j2, hj2, hx2⟩ := hx2
    have := hinj (0 + j1) (by omega) (n / 2 + j2) (by omega)
      (hx1.trans hx2.symm)
    omega

/-- A concrete pairwise-distinct, nonempty uuid stream for the C8
witness. -/
def wids : Nat → String := fun c => ["a", "b", "c"].getD c "d"

/-- Witness for C8 at the concrete instance `n = 4`. -/
theorem C8_witness :
    (2 ≤ 4 ∧ (∀ a, a < 4 - 1 → ∀ b, b < 4 - 1 → wids a = wids b → a = b) ∧
      (∀ c, c < 4 - 1 → wids c ≠ "")) ∧
    ((generateDataset wids 4).1.length = 4 ∧
      (generateDataset wids 4).2.1.card = 4 / 2 ∧
      (generateDataset wids 4).2.2.card = 4 - 4 / 2 - 1 ∧
      Disjoint (generateDataset wids 4).2.1 (generateDataset wids 4).2.2) :=
  ⟨⟨by decide, by decide, by decide⟩,
    (C8_dataset_shape wids 4 (by decide) (by decide) (by decide)).1,
    (C8_dataset_shape wids 4 (by decide) (by decide) (by decide)).2.2.2.2.1,
    (C8_dataset_shape wids 4 (by decide) (by decide) (by decide)).2.2.2.2.2.1,
    (C8_dataset_shape wids 4 (by decide) (by decide) (by decide)).2.2.2.2.2.2⟩

/-- On a size-0 filter the `Add` loop panics at its first iteration: the
digest is computed, then `% uint64(0)` divides by zero. -/
theorem addIndices_size_zero (murmur : Nat → List Char → Nat × Nat)
    (key : String) (i : Nat) (rest : List Nat) (bf : BloomFilter)
    (hz : bf.Size = 0) :
    BloomFilter.addIndices murmur key (i :: rest) bf = none := by
  rw [BloomFilter.addIndices]
  cases hcmh : BloomFilter.ComputeMurmurHash murmur bf key i with
  | none => rfl
  | some p =>
      obtain ⟨v, bfm⟩ := p
      obtain ⟨_, hsz⟩ := computeMurmurHash_store murmur bf key i v bfm hcmh
      simp [hsz, hz]

/-- On a size-0 filter the `Exists` loop panics at its first iteration
for the same reason. -/
theorem existsIndices_size_zero (murmur : Nat → List Char → Nat × Nat)
    (key : String) (i : Nat) (rest : List Nat) (bf : BloomFilter)
    (hz : bf.Size = 0) :
    BloomFilter.existsIndices murmur key (i :: rest) bf = none := by
  rw [BloomFilter.existsIndices]
  cases hcmh : BloomFilter.ComputeMurmurHash murmur bf key i with
  | none => rfl
  | some p =>
      obtain ⟨v, bfm⟩ := p
      obtain ⟨_, hsz⟩ := computeMurmurHash_store murmur bf key i v bfm hcmh
      simp [hsz, hz]

/-- C9: implicit construction edge cases.  `NewBloomFilter 0` returns a
filter value without error; the size precondition only bites later:
every `Add` or `Exists` on the size-0 filter is a panic (modulo by
zero), while a negative size already panics at construction (`make`
with negative length).  Under the precondition `size ≥ 1`, no
`Add`/`Exists`/`Info` call on a reachable filter can panic and every
computed index lies in `[0, size)`. -/
theorem C9_construction_edge_cases (murmur : Nat → List Char → Nat × Nat) :
    (∃ bf, NewBloomFilter 0 = some bf) ∧
    (∀ size : Int, size < 0 → NewBloomFilter size = none) ∧
    (∀ bf, NewBloomFilter 0 = some bf → ∀ key : String,
      BloomFilter.Add murmur bf key = none ∧
      BloomFilter.Exists murmur bf key = none) ∧
    (∀ (bf : BloomFilter) (key : String), WF bf → 1 ≤ bf.Size →
      (BloomFilter.Add murmur bf key).isSome = true ∧
      (BloomFilter.Exists murmur bf key).isSome = true ∧
      BloomFilter.Info bf = (bf.Size, 8) ∧
      (∀ i, i < 8 → keyIndex murmur i key bf.Size < bf.Size)) := by
  refine ⟨⟨zbf, by decide⟩, ?_, ?_, ?_⟩
  · intro size hneg
    rw [NewBloomFilter, if_pos hneg]
  · intro bf h0 key
    obtain ⟨hwf, hsz, _, hbank⟩ := newBloomFilter_wf 0 bf h0
    have hz : bf.Size = 0 := by omega
    have hlen : bf.mHashers.length = 8 := by rw [hbank]; rfl
    constructor
    · rw [BloomFilter.Add, hlen]
      exact addIndices_size_zero murmur key 0 [1, 2, 3, 4, 5, 6, 7] bf hz
    · rw [BloomFilter.Exists, hlen]
      exact existsIndices_size_zero murmur key 0 [1, 2, 3, 4, 5, 6, 7] bf hz
  · intro bf key hwf hsz
    obtain ⟨bf1, hadd, _, _, _, _⟩ := add_wf murmur bf key hwf hsz
    obtain ⟨r, hex⟩ := exists_wf murmur bf key hwf hsz
    refine ⟨by rw [hadd]; rfl, by rw [hex]; rfl, ?_, ?_⟩
    · rw [BloomFilter.Info]
      have : bf.mHashers.length = 8 := by rw [hwf.2]; rfl
      rw [this]
    · intro i _
      exact Nat.mod_lt _ (by omega)

/-- Witness for C9 at concrete instances: the size-0 filter and a
well-formed size-1 filter. -/
theorem C9_witness :
    (NewBloomFilter 0 = some zbf ∧ BloomFilter.Add wm zbf "k" = none ∧
      BloomFilter.Exists wm zbf "k" = none) ∧
    (WF wbfA ∧ 1 ≤ wbfA.Size ∧ (BloomFilter.Add wm wbfA "k").isSome = true ∧
      (BloomFilter.Exists wm wbfA "k").isSome = true ∧
      BloomFilter.Info wbfA = (wbfA.Size, 8)) :=
  ⟨⟨by decide, ((C9_construction_edge_cases wm).2.2.1 zbf (by decide) "k").1,
      ((C9_construction_edge_cases wm).2.2.1 zbf (by decide) "k").2⟩,
    ⟨by decide, by decide,
      ((C9_construction_edge_cases wm).2.2.2 wbfA "k" (by decide) (by decide)).1,
      ((C9_construction_edge_cases wm).2.2.2 wbfA "k" (by decide) (by decide)).2.1,
      ((C9_construction_edge_cases wm).2.2.2 wbfA "k" (by decide) (by decide)).2.2.1⟩⟩

/-- C10: shape of the `Exists` result pair.  When the boolean is true
the `uint64` component is always 0; when it is false the `uint64`
component is the store index (digest mod size) of the first hash
function, in bank order, whose bit is unset — every earlier hash
function's bit is set. -/
theorem C10_exists_result_shape (murmur : Nat → List Char → Nat × Nat)
    (bf : BloomFilter) (key : String) (hwf : WF bf) (hsz : 1 ≤ bf.Size) :
    (∀ (r : Nat) (bf1 : BloomFilter),
      BloomFilter.Exists murmur bf key = some (r, true, bf1) → r = 0) ∧
    (∀ (r : Nat) (bf1 : BloomFilter),
      BloomFilter.Exists murmur bf key = some (r, false, bf1) →
      ∃ j, j < 8 ∧ r = keyIndex murmur j key bf.Size ∧ bitAt bf r = false ∧
        ∀ i, i < j → bitAt bf (keyIndex murmur i key bf.Size) = true) := by
  have hlen : bf.mHashers.length = 8 := by rw [hwf.2]; rfl
  constructor
  · intro r bf1 h
    exact existsIndices_true_zero murmur key _ bf r bf1 h
  · intro r bf1 h
    rw [BloomFilter.Exists, hlen] at h
    have hrange : List.range 8 = List.range' 0 8 := List.range_eq_range' 8
    rw [hrange] at h
    obtain ⟨j, _, hj2, hj3, hj4, hj5⟩ :=
      existsIndices_false_first murmur key 8 0 bf r bf1 hwf hsz (by omega) h
    exact ⟨j, by omega, hj3, hj4, fun i hi => hj5 i (by omega) hi⟩

/-- Witness for C10 at a concrete instance: an all-false store makes the
very first hash function fail, returning its index with `false`. -/
theorem C10_witness :
    WF wbfA ∧ 1 ≤ wbfA.Size ∧
      BloomFilter.Exists wm wbfA "k" = some (0, false, wbfA) ∧
      (∃ j, j < 8 ∧ (0 : Nat) = keyIndex wm j "k" wbfA.Size ∧
        bitAt wbfA 0 = false ∧
        ∀ i, i < j → bitAt wbfA (keyIndex wm i "k" wbfA.Size) = true) :=
  ⟨by decide, by decide, by decide,
    (C10_exists_result_shape wm wbfA "k" (by decide) (by decide)).2 0 wbfA
      (by decide)⟩
